import Mathlib

/-!
Verification of the Echo State Network core and the Mackey-Glass driving-sequence
generator from `notebooks/03_echo_state_networks.ipynb`.

The embedding mirrors the notebook's numpy code:

* `esn_collect` (state collection) — vectors are `Fin n → ℝ`, matrices are
  Mathlib matrices over `ℝ`, `np.tanh` applied entrywise is `tanhVec`.  The
  notebook bootstraps with `X[0,:] = (1-alpha) * np.tanh(C @ Z[1,:] + zeta)`
  (note the index `1`), so a sequence of length `< 2` raises an IndexError;
  this is modelled by an `Option` result.
* `esn_ridge` — the ridge-regression part of `esn_fit`:
  `np.linalg.solve(X.T @ X + (T*L)*eye(K), X.T @ Y)`; `np.linalg.solve` is
  modelled by `linSolve`, which fails exactly on singular systems.
* `esn_auto` — autonomous iteration with the folded matrix `R = A + C @ W.T`;
  a horizon of `0` raises an IndexError in the source (`Xh[0,:] = X0` on an
  empty array), modelled by `Option`.
* `esn_normalize` — the rescaling `A = (A / np.linalg.norm(A, 2)) * rho` used
  when the reservoir is initialised; the operator 2-norm is the scoped
  `Matrix.L2OpNorm` norm.
* `mackey_glass` — forward Euler integration of the Mackey-Glass delay
  equation over `ℚ` (the code is exact rational arithmetic apart from
  rounding); the delay index uses Python's `int(...)` truncation, modelled by
  `pyInt`.  A second definition `mackey_glass_round` follows the specification
  text, which asks for `round(...)`, for comparison.
-/

open scoped Matrix.L2OpNorm

open scoped Matrix

namespace EAIWS

/-- Entrywise hyperbolic tangent, the embedding of `np.tanh` on a vector. -/
noncomputable def tanhVec {n : ℕ} (v : Fin n → ℝ) : Fin n → ℝ :=
  fun i => Real.tanh (v i)

/-- One driven reservoir update
`alpha * x + (1-alpha) * np.tanh(A @ x + C @ z + zeta)`
(the loop body of `esn_collect`). -/
noncomputable def esn_step {Dx Dz : ℕ} (A : Matrix (Fin Dx) (Fin Dx) ℝ)
    (C : Matrix (Fin Dx) (Fin Dz) ℝ) (zeta : Fin Dx → ℝ) (alpha : ℝ)
    (x : Fin Dx → ℝ) (z : Fin Dz → ℝ) : Fin Dx → ℝ :=
  alpha • x + (1 - alpha) • tanhVec (A.mulVec x + C.mulVec z + zeta)

/-- The state sequence of `esn_collect`.  Row `0` is
`(1-alpha) * np.tanh(C @ Z[1,:] + zeta)` — the notebook indexes the input at
`1`, not `0` — and row `t` for `t > 0` is `esn_step` applied to the previous
row and `Z[t,:]`.  Out-of-range reads are given by `List.getD`'s default; they
are ruled out by the length guard in `esn_collect`. -/
noncomputable def esn_state {Dx Dz : ℕ} (Z : List (Fin Dz → ℝ))
    (A : Matrix (Fin Dx) (Fin Dx) ℝ) (C : Matrix (Fin Dx) (Fin Dz) ℝ)
    (zeta : Fin Dx → ℝ) (alpha : ℝ) : ℕ → (Fin Dx → ℝ)
  | 0 => (1 - alpha) • tanhVec (C.mulVec (Z.getD 1 0) + zeta)
  | t + 1 => esn_step A C zeta alpha (esn_state Z A C zeta alpha t) (Z.getD (t + 1) 0)

/-- `esn_collect(Z, A, C, zeta, alpha)`: the full state trajectory, one row
per input row.  Accessing `Z[1,:]` (bootstrap) raises an IndexError when the
input has fewer than two rows, hence the guard. -/
noncomputable def esn_collect {Dx Dz : ℕ} (Z : List (Fin Dz → ℝ))
    (A : Matrix (Fin Dx) (Fin Dx) ℝ) (C : Matrix (Fin Dx) (Fin Dz) ℝ)
    (zeta : Fin Dx → ℝ) (alpha : ℝ) : Option (List (Fin Dx → ℝ)) :=
  if 2 ≤ Z.length then
    some ((List.range Z.length).map (esn_state Z A C zeta alpha))
  else none

open scoped Classical in
/-- `np.linalg.solve(M, B)`: the unique solution of `M @ X = B` when `M` is
invertible, an error (modelled as `none`) when `M` is singular. -/
noncomputable def linSolve {K m : ℕ} (M : Matrix (Fin K) (Fin K) ℝ)
    (B : Matrix (Fin K) (Fin m) ℝ) : Option (Matrix (Fin K) (Fin m) ℝ) :=
  if IsUnit M.det then some (M⁻¹ * B) else none

/-- The ridge readout solve of `esn_fit`, given the state matrix:
`W_hat = np.linalg.solve(X.T @ X + (T*L)*np.eye(K), X.T @ Y)`, then
`Y_fit = X @ W_hat` and `Error = Y - Y_fit`. -/
noncomputable def esn_ridge {T K m : ℕ} (S : Matrix (Fin T) (Fin K) ℝ)
    (Y : Matrix (Fin T) (Fin m) ℝ) (L : ℝ) :
    Option (Matrix (Fin K) (Fin m) ℝ × Matrix (Fin T) (Fin m) ℝ × Matrix (Fin T) (Fin m) ℝ) :=
  (linSolve (Sᵀ * S + ((T : ℝ) * L) • (1 : Matrix (Fin K) (Fin K) ℝ)) (Sᵀ * Y)).map
    (fun W => (W, S * W, Y - S * W))

/-- The autonomous state sequence of `esn_auto`: `Xh[0,:] = X0` and
`Xh[t,:] = alpha * Xh[t-1,:] + (1-alpha) * np.tanh(R @ Xh[t-1,:] + zeta)`
with `R = A + C @ W.T`. -/
noncomputable def esn_auto_state {Dx Dy : ℕ} (X0 : Fin Dx → ℝ)
    (A : Matrix (Fin Dx) (Fin Dx) ℝ) (C : Matrix (Fin Dx) (Fin Dy) ℝ)
    (zeta : Fin Dx → ℝ) (alpha : ℝ) (W : Matrix (Fin Dx) (Fin Dy) ℝ) :
    ℕ → (Fin Dx → ℝ)
  | 0 => X0
  | t + 1 =>
      alpha • esn_auto_state X0 A C zeta alpha W t +
        (1 - alpha) • tanhVec ((A + C * Wᵀ).mulVec (esn_auto_state X0 A C zeta alpha W t) + zeta)

/-- `esn_auto(X0, h, A, C, zeta, alpha, W)`: `h` autonomous states together
with the outputs `Yh[t,:] = Xh[t,:] @ W`.  A horizon of `0` raises an
IndexError in the source (`Xh[0,:] = X0` on an empty array), hence the
guard. -/
noncomputable def esn_auto {Dx Dy : ℕ} (X0 : Fin Dx → ℝ) (h : ℕ)
    (A : Matrix (Fin Dx) (Fin Dx) ℝ) (C : Matrix (Fin Dx) (Fin Dy) ℝ)
    (zeta : Fin Dx → ℝ) (alpha : ℝ) (W : Matrix (Fin Dx) (Fin Dy) ℝ) :
    Option (List (Fin Dx → ℝ) × List (Fin Dy → ℝ)) :=
  if 1 ≤ h then
    some ((List.range h).map (esn_auto_state X0 A C zeta alpha W),
      (List.range h).map (fun t => Matrix.vecMul (esn_auto_state X0 A C zeta alpha W t) W))
  else none

/-- The reservoir rescaling `(M / np.linalg.norm(M, 2)) * r` used when the
random reservoir matrices are drawn (`A` is scaled to `rho`, `C` to `gamma`).
`‖M‖` is the operator 2-norm (largest singular value), which is what
`np.linalg.norm(·, 2)` computes on a matrix. -/
noncomputable def esn_normalize {p q : ℕ} (M : Matrix (Fin p) (Fin q) ℝ)
    (r : ℝ) : Matrix (Fin p) (Fin q) ℝ :=
  fun i j => (M i j / ‖M‖) * r

/-- Python's `int(q)`: truncation toward zero. -/
def pyInt (q : ℚ) : ℤ :=
  if 0 ≤ q then ⌊q⌋ else -⌊-q⌋

/-- The delay lookup index of `mackey_glass`:
`delay_index = max(t - int(tau / delta_t), 0)`. -/
def mg_delay (tau delta_t : ℚ) (t : ℕ) : ℕ :=
  (max ((t : ℤ) - pyInt (tau / delta_t)) 0).toNat

/-- The growing array `x` of `mackey_glass`, parameterised by the delay-index
function `dly` (the source hardcodes `mg_delay tau delta_t`; the specification
text asks for `mg_delay_round tau delta_t`).  `mg_build ... t` is the prefix
`x[0..t]`.  `x[0] = 0.5`, and step `t` appends
`x[t-1] + delta_t * (beta * x[d] / (1 + x[d]**n) - gamma * x[t-1])` with
`d = dly t`; a lookup past the filled prefix reads `0`, exactly as the
pre-allocated `np.zeros` array does. -/
def mg_build (beta gamma : ℚ) (n : ℕ) (dly : ℕ → ℕ) (delta_t : ℚ) : ℕ → List ℚ
  | 0 => [1 / 2]
  | t + 1 =>
      let xs := mg_build beta gamma n dly delta_t t
      let xd := xs.getD (dly (t + 1)) 0
      let xp := xs.getD t 0
      xs ++ [xp + delta_t * (beta * xd / (1 + xd ^ n) - gamma * xp)]

/-- The value `x[t]` computed by `mackey_glass` (before amplitude scaling). -/
def mg_x (beta gamma : ℚ) (n : ℕ) (tau delta_t : ℚ) (t : ℕ) : ℚ :=
  (mg_build beta gamma n (mg_delay tau delta_t) delta_t t).getD t 0

/-- The delayed value read at step `t+1`: the already-assigned entry when the
delay index lands in the filled prefix, the array's zero fill otherwise. -/
def mg_delayed (beta gamma : ℚ) (n : ℕ) (tau delta_t : ℚ) (t : ℕ) : ℚ :=
  if mg_delay tau delta_t (t + 1) ≤ t then
    mg_x beta gamma n tau delta_t (mg_delay tau delta_t (t + 1))
  else 0

/-- `mackey_glass(beta, gamma, n, tau, a, delta_t, num_steps)`: the simulated
trajectory, returned as `a * x`.  With `num_steps = 0` the source raises an
IndexError on `x[0] = 0.5`, hence the guard. -/
def mackey_glass (beta gamma : ℚ) (n : ℕ) (tau a delta_t : ℚ)
    (num_steps : ℕ) : Option (List ℚ) :=
  if num_steps = 0 then none
  else
    some ((mg_build beta gamma n (mg_delay tau delta_t) delta_t (num_steps - 1)).map
      (fun v => a * v))

/-- Modelled from the spec: the delay index written in the specification and
in claim C9, `t - round(tau / delta_t)` clamped at `0` — rounding instead of
the source's `int(...)` truncation. -/
def mg_delay_round (tau delta_t : ℚ) (t : ℕ) : ℕ :=
  (max ((t : ℤ) - round (tau / delta_t)) 0).toNat

/-- Modelled from the spec: the Mackey-Glass integrator exactly as claim C9
words it, with the delay index `t - round(tau / delta_t)`; everything else is
as in `mackey_glass`. -/
def mackey_glass_round (beta gamma : ℚ) (n : ℕ) (tau a delta_t : ℚ)
    (num_steps : ℕ) : Option (List ℚ) :=
  if num_steps = 0 then none
  else
    some ((mg_build beta gamma n (mg_delay_round tau delta_t) delta_t (num_steps - 1)).map
      (fun v => a * v))

/-! ### Helper lemmas -/

/-- The hyperbolic tangent is bounded by one in absolute value. -/
lemma abs_tanh_le_one (x : ℝ) : |Real.tanh x| ≤ 1 := by
  have hc := Real.cosh_pos x
  have h1 : Real.sinh x < Real.cosh x := Real.sinh_lt_cosh x
  have h2 : -Real.cosh x < Real.sinh x := by
    have h := Real.sinh_lt_cosh (-x)
    rw [Real.sinh_neg, Real.cosh_neg] at h
    linarith
  rw [Real.tanh_eq_sinh_div_cosh, abs_div, abs_of_pos hc, div_le_one hc]
  exact le_of_lt (abs_lt.mpr ⟨h2, h1⟩)

/-- Indexing a mapped `List.range` with a default. -/
lemma getD_range_map {β : Type*} (f : ℕ → β) {n t : ℕ} (h : t < n) (d : β) :
    ((List.range n).map f).getD t d = f t := by
  rw [List.getD_eq_getElem _ _ (by simpa using h)]
  simp

/-! ### Claims -/

/-- C10: on an input sequence of length exactly one the state collector fails
(the bootstrap reads `Z[1,:]`, which is out of bounds), and it succeeds on
every input sequence of length at least two. -/
theorem esn_collect_length_one_fails {Dx Dz : ℕ} :
    (∀ (z : Fin Dz → ℝ) (A : Matrix (Fin Dx) (Fin Dx) ℝ)
        (C : Matrix (Fin Dx) (Fin Dz) ℝ) (zeta : Fin Dx → ℝ) (alpha : ℝ),
      esn_collect [z] A C zeta alpha = none) ∧
    (∀ (Z : List (Fin Dz → ℝ)) (A : Matrix (Fin Dx) (Fin Dx) ℝ)
        (C : Matrix (Fin Dx) (Fin Dz) ℝ) (zeta : Fin Dx → ℝ) (alpha : ℝ),
      2 ≤ Z.length → (esn_collect Z A C zeta alpha).isSome) := by
  constructor
  · intro z A C zeta alpha
    simp [esn_collect]
  · intro Z A C zeta alpha hZ
    simp [esn_collect, hZ]

/-- Witness for C10 at a concrete input. -/
theorem esn_collect_length_one_fails_witness :
    esn_collect [(0 : Fin 1 → ℝ)] (0 : Matrix (Fin 1) (Fin 1) ℝ) 0 0 0 = none ∧
    (esn_collect [(0 : Fin 1 → ℝ), 0] (0 : Matrix (Fin 1) (Fin 1) ℝ) 0 0 0).isSome :=
  ⟨esn_collect_length_one_fails.1 0 0 0 0 0,
   esn_collect_length_one_fails.2 [0, 0] 0 0 0 0 (by simp)⟩

/-- C2, counterexample: on the length-one input sequence `[0]` the state
collector does not return a trajectory at all (the claim asserts it returns a
length-1 trajectory for every `T ≥ 1`). -/
theorem esn_collect_len1_counterexample :
    esn_collect [(0 : Fin 1 → ℝ)] (0 : Matrix (Fin 1) (Fin 1) ℝ) 0 0 0 = none := by
  simp [esn_collect]

/-- C2 (amended to `T ≥ 2`): on an input sequence of length `T ≥ 2` the state
collector returns a trajectory of exactly `T` state vectors satisfying
`state[t] = alpha * state[t-1] + (1-alpha) * tanh(A @ state[t-1] + C @ input[t] + zeta)`
for every `0 < t < T`. -/
theorem esn_collect_trajectory {Dx Dz : ℕ} (Z : List (Fin Dz → ℝ))
    (A : Matrix (Fin Dx) (Fin Dx) ℝ) (C : Matrix (Fin Dx) (Fin Dz) ℝ)
    (zeta : Fin Dx → ℝ) (alpha : ℝ) (hZ : 2 ≤ Z.length) :
    ∃ X, esn_collect Z A C zeta alpha = some X ∧ X.length = Z.length ∧
      ∀ t, 0 < t → t < Z.length →
        X.getD t 0 = alpha • X.getD (t - 1) 0 +
          (1 - alpha) • tanhVec (A.mulVec (X.getD (t - 1) 0) +
            C.mulVec (Z.getD t 0) + zeta) := by
  refine ⟨(List.range Z.length).map (esn_state Z A C zeta alpha), ?_, by simp, ?_⟩
  · simp [esn_collect, hZ]
  · intro t ht htl
    obtain ⟨s, rfl⟩ : ∃ s, t = s + 1 := ⟨t - 1, (Nat.succ_pred_eq_of_pos ht).symm⟩
    rw [getD_range_map _ htl, Nat.add_sub_cancel,
      getD_range_map _ (Nat.lt_of_succ_lt htl)]
    rfl

/-- Witness for C2's amended theorem at a concrete input. -/
theorem esn_collect_trajectory_witness :
    ∃ X, esn_collect [(0 : Fin 1 → ℝ), 0] (0 : Matrix (Fin 1) (Fin 1) ℝ) 0 0 0 = some X ∧
      X.length = ([(0 : Fin 1 → ℝ), 0] : List (Fin 1 → ℝ)).length ∧
      ∀ t, 0 < t → t < ([(0 : Fin 1 → ℝ), 0] : List (Fin 1 → ℝ)).length →
        X.getD t 0 = (0 : ℝ) • X.getD (t - 1) 0 +
          (1 - (0 : ℝ)) • tanhVec ((0 : Matrix (Fin 1) (Fin 1) ℝ).mulVec (X.getD (t - 1) 0) +
            (0 : Matrix (Fin 1) (Fin 1) ℝ).mulVec (([(0 : Fin 1 → ℝ), 0]).getD t 0) + 0) :=
  esn_collect_trajectory [0, 0] 0 0 0 0 (by simp)

/-- C1 (the code at the failing input): with inputs `Z = [[0], [1]]`,
`A = 0`, `C = I`, `zeta = 0`, `alpha = 0`, the first collected state is
`tanh(1)` entrywise — the bootstrap applies `C` to `Z[1,:]` — whereas the
claimed formula `(1 - alpha) * tanh(C @ Z[0,:] + zeta)` evaluates to `0`, and
the two differ. -/
theorem esn_bootstrap_uses_second_input :
    esn_state [(0 : Fin 1 → ℝ), fun _ => 1] (0 : Matrix (Fin 1) (Fin 1) ℝ) 1 0 0 0 =
      (fun _ => Real.tanh 1) ∧
    (1 - (0 : ℝ)) • tanhVec ((1 : Matrix (Fin 1) (Fin 1) ℝ).mulVec (0 : Fin 1 → ℝ) + 0) =
      (0 : Fin 1 → ℝ) ∧
    (fun _ => Real.tanh 1) ≠ (0 : Fin 1 → ℝ) := by
  refine ⟨?_, ?_, ?_⟩
  · funext i
    simp [esn_state, tanhVec, Matrix.one_mulVec]
  · funext i
    simp [tanhVec, Matrix.one_mulVec]
  · intro hcontra
    have h0 : Real.tanh 1 = 0 := congrFun hcontra 0
    have hpos : 0 < Real.tanh 1 := by
      rw [Real.tanh_eq_sinh_div_cosh]
      exact div_pos (Real.sinh_pos_iff.mpr one_pos) (Real.cosh_pos 1)
    linarith

/-- Every entry of every collected state is in `[-1, 1]` when the leak rate is. -/
lemma esn_state_mem_Icc {Dx Dz : ℕ} (Z : List (Fin Dz → ℝ))
    (A : Matrix (Fin Dx) (Fin Dx) ℝ) (C : Matrix (Fin Dx) (Fin Dz) ℝ)
    (zeta : Fin Dx → ℝ) {alpha : ℝ} (h0 : 0 ≤ alpha) (h1 : alpha ≤ 1)
    (t : ℕ) (i : Fin Dx) :
    -1 ≤ esn_state Z A C zeta alpha t i ∧ esn_state Z A C zeta alpha t i ≤ 1 := by
  induction t with
  | zero =>
      have ht := abs_le.mp (abs_tanh_le_one ((C.mulVec (Z.getD 1 0) + zeta) i))
      simp only [esn_state, Pi.smul_apply, smul_eq_mul, tanhVec]
      constructor <;> nlinarith [ht.1, ht.2]
  | succ t ih =>
      have ht := abs_le.mp (abs_tanh_le_one
        ((A.mulVec (esn_state Z A C zeta alpha t)) i + (C.mulVec (Z.getD (t + 1) 0)) i + zeta i))
      simp only [esn_state, esn_step, Pi.add_apply, Pi.smul_apply, smul_eq_mul, tanhVec]
      constructor <;> nlinarith [ih.1, ih.2, ht.1, ht.2]

/-- C6: with leak rate in `[0, 1]`, every entry of every state vector in a
trajectory returned by the state collector lies in `[-1, 1]`. -/
theorem esn_collect_bounded {Dx Dz : ℕ} (Z : List (Fin Dz → ℝ))
    (A : Matrix (Fin Dx) (Fin Dx) ℝ) (C : Matrix (Fin Dx) (Fin Dz) ℝ)
    (zeta : Fin Dx → ℝ) (alpha : ℝ) (h0 : 0 ≤ alpha) (h1 : alpha ≤ 1)
    (X : List (Fin Dx → ℝ)) (hX : esn_collect Z A C zeta alpha = some X) :
    ∀ x ∈ X, ∀ i, -1 ≤ x i ∧ x i ≤ 1 := by
  intro x hx i
  rw [esn_collect] at hX
  by_cases hZ : 2 ≤ Z.length
  · rw [if_pos hZ, Option.some_inj] at hX
    subst hX
    obtain ⟨t, -, rfl⟩ := List.mem_map.mp hx
    exact esn_state_mem_Icc Z A C zeta h0 h1 t i
  · rw [if_neg hZ] at hX
    exact absurd hX (by simp)

/-- Witness for C6 at a concrete input: the first collected state of a
concrete run, evaluated at its only coordinate, is in `[-1, 1]`. -/
theorem esn_collect_bounded_witness : -1 ≤ Real.tanh 0 ∧ Real.tanh 0 ≤ 1 := by
  have hX : esn_collect [(0 : Fin 1 → ℝ), 0] (1 : Matrix (Fin 1) (Fin 1) ℝ) 1 0 0 =
      some [fun _ => Real.tanh 0, fun _ => Real.tanh (Real.tanh 0)] := by
    rw [esn_collect, if_pos (by simp)]
    refine congrArg some ?_
    have hrange : List.range ([(0 : Fin 1 → ℝ), 0] : List (Fin 1 → ℝ)).length = [0, 1] := rfl
    rw [hrange]
    simp only [List.map_cons, List.map_nil]
    refine congrArg₂ List.cons ?_ (congrArg₂ List.cons ?_ rfl)
    · funext i
      simp [esn_state, tanhVec, Matrix.one_mulVec]
    · funext i
      simp [esn_state, esn_step, tanhVec, Matrix.one_mulVec]
  exact esn_collect_bounded [(0 : Fin 1 → ℝ), 0] (1 : Matrix (Fin 1) (Fin 1) ℝ) 1 0 0
    le_rfl zero_le_one [fun _ => Real.tanh 0, fun _ => Real.tanh (Real.tanh 0)] hX
    (fun _ => Real.tanh 0) (List.mem_cons_self _ _) 0

/-- C5: a horizon-1 autonomous forecast outputs exactly `seed_state @ W`, and
one autonomous update from `x` (with the folded matrix `R = A + C @ W.T`)
coincides with the driven `esn_collect` update from `x` fed the input
`x @ W`. -/
theorem esn_auto_fold_consistent {Dx Dy : ℕ} (x : Fin Dx → ℝ)
    (A : Matrix (Fin Dx) (Fin Dx) ℝ) (C : Matrix (Fin Dx) (Fin Dy) ℝ)
    (zeta : Fin Dx → ℝ) (alpha : ℝ) (W : Matrix (Fin Dx) (Fin Dy) ℝ) :
    (esn_auto x 1 A C zeta alpha W).map Prod.snd = some [Matrix.vecMul x W] ∧
    esn_auto_state x A C zeta alpha W 1 =
      esn_step A C zeta alpha x (Matrix.vecMul x W) := by
  constructor
  · rw [esn_auto, if_pos le_rfl]
    rw [show List.range 1 = [0] from rfl]
    simp [esn_auto_state]
  · show alpha • x + (1 - alpha) • tanhVec ((A + C * Wᵀ).mulVec x + zeta) = _
    rw [esn_step, Matrix.add_mulVec, ← Matrix.mulVec_mulVec, Matrix.mulVec_transpose]

/-- C4: for horizon `h ≥ 1` the autonomous forecaster returns exactly `h`
states and `h` outputs with `state[0]` the seed, `output[t] = state[t] @ W`
for all `t`, and
`state[t] = alpha * state[t-1] + (1-alpha) * tanh((A + C @ W.T) @ state[t-1] + zeta)`
for `0 < t < h`. -/
theorem esn_auto_trajectory {Dx Dy : ℕ} (X0 : Fin Dx → ℝ) (h : ℕ)
    (A : Matrix (Fin Dx) (Fin Dx) ℝ) (C : Matrix (Fin Dx) (Fin Dy) ℝ)
    (zeta : Fin Dx → ℝ) (alpha : ℝ) (W : Matrix (Fin Dx) (Fin Dy) ℝ)
    (hh : 1 ≤ h) :
    ∃ Xh Yh, esn_auto X0 h A C zeta alpha W = some (Xh, Yh) ∧
      Xh.length = h ∧ Yh.length = h ∧ Xh.getD 0 0 = X0 ∧
      (∀ t, t < h → Yh.getD t 0 = Matrix.vecMul (Xh.getD t 0) W) ∧
      ∀ t, 0 < t → t < h →
        Xh.getD t 0 = alpha • Xh.getD (t - 1) 0 +
          (1 - alpha) • tanhVec ((A + C * Wᵀ).mulVec (Xh.getD (t - 1) 0) + zeta) := by
  refine ⟨(List.range h).map (esn_auto_state X0 A C zeta alpha W),
    (List.range h).map (fun t => Matrix.vecMul (esn_auto_state X0 A C zeta alpha W t) W),
    ?_, by simp, by simp, ?_, ?_, ?_⟩
  · rw [esn_auto, if_pos hh]
  · rw [getD_range_map _ hh]
    rfl
  · intro t htl
    rw [getD_range_map _ htl, getD_range_map _ htl]
  · intro t ht htl
    obtain ⟨s, rfl⟩ : ∃ s, t = s + 1 := ⟨t - 1, (Nat.succ_pred_eq_of_pos ht).symm⟩
    rw [getD_range_map _ htl, Nat.add_sub_cancel,
      getD_range_map _ (Nat.lt_of_succ_lt htl)]
    rfl

/-- Witness for C4 at a concrete input. -/
theorem esn_auto_trajectory_witness :
    ∃ Xh Yh,
      esn_auto (0 : Fin 1 → ℝ) 1 (0 : Matrix (Fin 1) (Fin 1) ℝ) 0 0 0 0 = some (Xh, Yh) ∧
      Xh.length = 1 ∧ Yh.length = 1 ∧ Xh.getD 0 0 = (0 : Fin 1 → ℝ) ∧
      (∀ t, t < 1 → Yh.getD t 0 = Matrix.vecMul (Xh.getD t 0) (0 : Matrix (Fin 1) (Fin 1) ℝ)) ∧
      ∀ t, 0 < t → t < 1 →
        Xh.getD t 0 = (0 : ℝ) • Xh.getD (t - 1) 0 +
          (1 - (0 : ℝ)) • tanhVec (((0 : Matrix (Fin 1) (Fin 1) ℝ) +
            (0 : Matrix (Fin 1) (Fin 1) ℝ) * (0 : Matrix (Fin 1) (Fin 1) ℝ)ᵀ).mulVec
              (Xh.getD (t - 1) 0) + 0) :=
  esn_auto_trajectory 0 1 0 0 0 0 0 le_rfl

/-- C3: whenever the ridge fitter succeeds with penalty `L ≥ 0`, the returned
weights solve the `T`-scaled normal equations
`(S^T S + T*L*I) W = S^T Y`, the fitted values are `S @ W`, and the residuals
are `Y - S @ W`. -/
theorem esn_ridge_normal_equations {T K m : ℕ} (S : Matrix (Fin T) (Fin K) ℝ)
    (Y : Matrix (Fin T) (Fin m) ℝ) (L : ℝ) (hL : 0 ≤ L)
    (W : Matrix (Fin K) (Fin m) ℝ) (F E : Matrix (Fin T) (Fin m) ℝ)
    (hfit : esn_ridge S Y L = some (W, F, E)) :
    (Sᵀ * S + ((T : ℝ) * L) • (1 : Matrix (Fin K) (Fin K) ℝ)) * W = Sᵀ * Y ∧
      F = S * W ∧ E = Y - S * W := by
  rw [esn_ridge, linSolve] at hfit
  by_cases hdet : IsUnit (Sᵀ * S + ((T : ℝ) * L) • (1 : Matrix (Fin K) (Fin K) ℝ)).det
  · rw [if_pos hdet, Option.map_some', Option.some_inj] at hfit
    simp only [Prod.mk.injEq] at hfit
    obtain ⟨hW, hF, hE⟩ := hfit
    subst hW hF hE
    refine ⟨?_, rfl, rfl⟩
    rw [← Matrix.mul_assoc, Matrix.mul_nonsing_inv _ hdet, Matrix.one_mul]
  · rw [if_neg hdet] at hfit
    exact absurd hfit (by simp)

/-- Witness for C3 at a concrete input. -/
theorem esn_ridge_normal_equations_witness :
    ((1 : Matrix (Fin 1) (Fin 1) ℝ)ᵀ * 1 + (((1 : ℕ) : ℝ) * 0) • (1 : Matrix (Fin 1) (Fin 1) ℝ))
        * 1 = (1 : Matrix (Fin 1) (Fin 1) ℝ)ᵀ * 1 ∧
      (1 : Matrix (Fin 1) (Fin 1) ℝ) = 1 * 1 ∧
      (0 : Matrix (Fin 1) (Fin 1) ℝ) = 1 - 1 * 1 := by
  refine esn_ridge_normal_equations 1 1 0 le_rfl 1 1 0 ?_
  rw [esn_ridge, linSolve]
  rw [if_pos (by simp)]
  simp

/-- C8 (amended to `T ≥ 1`): if the Gram matrix `S^T S` is singular the
zero-penalty solve fails, and for every positive penalty on a state matrix
with at least one row the solve succeeds and returns the unique solution of
the regularized system. -/
theorem esn_ridge_singular_vs_regular {T K m : ℕ} (S : Matrix (Fin T) (Fin K) ℝ)
    (Y : Matrix (Fin T) (Fin m) ℝ) :
    (¬ IsUnit (Sᵀ * S).det → esn_ridge S Y 0 = none) ∧
    (∀ L : ℝ, 0 < L → 0 < T →
      ∃ W F E, esn_ridge S Y L = some (W, F, E) ∧
        ∀ Wp, (Sᵀ * S + ((T : ℝ) * L) • (1 : Matrix (Fin K) (Fin K) ℝ)) * Wp = Sᵀ * Y →
          Wp = W) := by
  constructor
  · intro hsing
    rw [esn_ridge, linSolve]
    rw [show Sᵀ * S + (((T : ℝ) * 0) • (1 : Matrix (Fin K) (Fin K) ℝ)) = Sᵀ * S by
      rw [mul_zero, zero_smul, add_zero]]
    rw [if_neg hsing, Option.map_none']
  · intro L hL hT
    have hps : (Sᵀ * S).PosSemidef := by
      have h := Matrix.posSemidef_conjTranspose_mul_self S
      rwa [Matrix.conjTranspose_eq_transpose_of_trivial] at h
    have hpd : (((T : ℝ) * L) • (1 : Matrix (Fin K) (Fin K) ℝ)).PosDef := by
      rw [Matrix.smul_one_eq_diagonal]
      exact Matrix.PosDef.diagonal fun _ => mul_pos (by exact_mod_cast hT) hL
    have hM : (Sᵀ * S + ((T : ℝ) * L) • (1 : Matrix (Fin K) (Fin K) ℝ)).PosDef :=
      Matrix.PosDef.posSemidef_add hps hpd
    have hdet : IsUnit (Sᵀ * S + ((T : ℝ) * L) • (1 : Matrix (Fin K) (Fin K) ℝ)).det :=
      hM.det_pos.ne'.isUnit
    refine ⟨(Sᵀ * S + ((T : ℝ) * L) • (1 : Matrix (Fin K) (Fin K) ℝ))⁻¹ * (Sᵀ * Y),
      S * ((Sᵀ * S + ((T : ℝ) * L) • (1 : Matrix (Fin K) (Fin K) ℝ))⁻¹ * (Sᵀ * Y)),
      Y - S * ((Sᵀ * S + ((T : ℝ) * L) • (1 : Matrix (Fin K) (Fin K) ℝ))⁻¹ * (Sᵀ * Y)),
      ?_, ?_⟩
    · rw [esn_ridge, linSolve, if_pos hdet, Option.map_some']
    · intro Wp hWp
      rw [← hWp, ← Matrix.mul_assoc, Matrix.nonsing_inv_mul _ hdet, Matrix.one_mul]

/-- Witness for C8's amended theorem: both branches at concrete inputs. -/
theorem esn_ridge_singular_vs_regular_witness :
    esn_ridge (0 : Matrix (Fin 1) (Fin 1) ℝ) (0 : Matrix (Fin 1) (Fin 1) ℝ) 0 = none ∧
    ∃ W F E, esn_ridge (1 : Matrix (Fin 1) (Fin 1) ℝ) (1 : Matrix (Fin 1) (Fin 1) ℝ) 1 =
        some (W, F, E) ∧
      ∀ Wp, ((1 : Matrix (Fin 1) (Fin 1) ℝ)ᵀ * 1 +
          (((1 : ℕ) : ℝ) * 1) • (1 : Matrix (Fin 1) (Fin 1) ℝ)) * Wp =
          (1 : Matrix (Fin 1) (Fin 1) ℝ)ᵀ * 1 → Wp = W :=
  ⟨(esn_ridge_singular_vs_regular (0 : Matrix (Fin 1) (Fin 1) ℝ) 0).1
      (by simp [Matrix.det_fin_one]),
   (esn_ridge_singular_vs_regular (1 : Matrix (Fin 1) (Fin 1) ℝ) 1).2 1 one_pos Nat.one_pos⟩

/-- C8, counterexample: the empty state matrix with one column has a singular
Gram matrix, yet the solve also fails for the positive penalty `1`, because
the penalty is scaled by the number of rows `T = 0`. -/
theorem esn_ridge_zero_rows_counterexample :
    ¬ IsUnit ((0 : Matrix (Fin 0) (Fin 1) ℝ)ᵀ * (0 : Matrix (Fin 0) (Fin 1) ℝ)).det ∧
    esn_ridge (0 : Matrix (Fin 0) (Fin 1) ℝ) (0 : Matrix (Fin 0) (Fin 1) ℝ) 1 = none := by
  constructor
  · simp [Matrix.det_fin_one, Matrix.mul_apply]
  · rw [esn_ridge, linSolve, if_neg, Option.map_none']
    simp [Matrix.det_fin_one, Matrix.mul_apply, Matrix.one_apply]

/-- C7: rescaling a matrix with nonzero operator 2-norm by
`(M / ‖M‖) * r` yields a matrix of operator 2-norm exactly `r`, for every
positive target `r`; this covers both `A` (scaled to `spectral_radius_target`)
and `C` (scaled to `input_scale_target`). -/
theorem esn_normalize_opNorm {p q : ℕ} (M : Matrix (Fin p) (Fin q) ℝ) (r : ℝ)
    (hM : ‖M‖ ≠ 0) (hr : 0 < r) : ‖esn_normalize M r‖ = r := by
  have hrw : esn_normalize M r = (r / ‖M‖) • M := by
    funext i j
    simp only [esn_normalize, Matrix.smul_apply, smul_eq_mul]
    ring
  rw [hrw, norm_smul, Real.norm_eq_abs,
    abs_of_nonneg (div_nonneg hr.le (norm_nonneg M)), div_mul_cancel₀ _ hM]

/-- Witness for C7 at a concrete input. -/
theorem esn_normalize_opNorm_witness :
    ‖esn_normalize (1 : Matrix (Fin 1) (Fin 1) ℝ) 2‖ = 2 :=
  esn_normalize_opNorm 1 2 (norm_ne_zero_iff.mpr one_ne_zero) two_pos

/-- The prefix array built by `mg_build` has length `t + 1`. -/
lemma mg_build_length (beta gamma : ℚ) (n : ℕ) (dly : ℕ → ℕ) (delta_t : ℚ) :
    ∀ t, (mg_build beta gamma n dly delta_t t).length = t + 1 := by
  intro t
  induction t with
  | zero => rfl
  | succ t ih => simp [mg_build, ih]

/-- Entries of the prefix array are stable as the array grows. -/
lemma mg_build_getD_stable (beta gamma : ℚ) (n : ℕ) (dly : ℕ → ℕ) (delta_t : ℚ) :
    ∀ t s, s ≤ t →
      (mg_build beta gamma n dly delta_t t).getD s 0 =
        (mg_build beta gamma n dly delta_t s).getD s 0 := by
  intro t
  induction t with
  | zero =>
      intro s hs
      obtain rfl : s = 0 := Nat.le_zero.mp hs
      rfl
  | succ t ih =>
      intro s hs
      rcases Nat.lt_succ_iff_lt_or_eq.mp (Nat.lt_succ_of_le hs) with h | rfl
      · have hlen : s < (mg_build beta gamma n dly delta_t t).length := by
          rw [mg_build_length]; omega
        rw [show mg_build beta gamma n dly delta_t (t + 1) =
            mg_build beta gamma n dly delta_t t ++
              [(mg_build beta gamma n dly delta_t t).getD t 0 +
                delta_t * (beta * (mg_build beta gamma n dly delta_t t).getD (dly (t + 1)) 0 /
                    (1 + (mg_build beta gamma n dly delta_t t).getD (dly (t + 1)) 0 ^ n) -
                  gamma * (mg_build beta gamma n dly delta_t t).getD t 0)] from rfl]
        rw [List.getD_append _ _ _ _ hlen]
        exact ih s (Nat.lt_succ_iff.mp h)
      · rfl

/-- Unfolding of one `mg_build` step. -/
lemma mg_build_succ (beta gamma : ℚ) (n : ℕ) (dly : ℕ → ℕ) (delta_t : ℚ) (t : ℕ) :
    mg_build beta gamma n dly delta_t (t + 1) =
      mg_build beta gamma n dly delta_t t ++
        [(mg_build beta gamma n dly delta_t t).getD t 0 +
          delta_t * (beta * (mg_build beta gamma n dly delta_t t).getD (dly (t + 1)) 0 /
              (1 + (mg_build beta gamma n dly delta_t t).getD (dly (t + 1)) 0 ^ n) -
            gamma * (mg_build beta gamma n dly delta_t t).getD t 0)] := rfl

/-- C9 (amended: the delay index truncates `tau / delta_t` toward zero rather
than rounding it): the Mackey-Glass integrator returns exactly
`num_steps` values, equal to `amplitude * x[t]` where `x[0] = 0.5` and each
step is the forward Euler update
`x[t+1] = x[t] + delta_t * (beta * x[d] / (1 + x[d]^n) - gamma * x[t])` with
`d = max(t + 1 - int(tau / delta_t), 0)` (reading the array's zero fill when
the delay index is not yet assigned). -/
theorem mackey_glass_truncated_euler (beta gamma : ℚ) (n : ℕ) (tau a delta_t : ℚ)
    (N : ℕ) (hN : 0 < N) :
    ∃ xs, mackey_glass beta gamma n tau a delta_t N = some xs ∧ xs.length = N ∧
      (∀ t, t < N → xs.getD t 0 = a * mg_x beta gamma n tau delta_t t) ∧
      mg_x beta gamma n tau delta_t 0 = 1 / 2 ∧
      ∀ t, mg_x beta gamma n tau delta_t (t + 1) =
        mg_x beta gamma n tau delta_t t +
          delta_t * (beta * mg_delayed beta gamma n tau delta_t t /
              (1 + mg_delayed beta gamma n tau delta_t t ^ n) -
            gamma * mg_x beta gamma n tau delta_t t) := by
  refine ⟨(mg_build beta gamma n (mg_delay tau delta_t) delta_t (N - 1)).map (fun v => a * v),
    ?_, ?_, ?_, rfl, ?_⟩
  · rw [mackey_glass, if_neg (by omega)]
  · rw [List.length_map, mg_build_length]
    omega
  · intro t ht
    rw [show (0 : ℚ) = a * 0 by ring, List.getD_map,
      mg_build_getD_stable beta gamma n (mg_delay tau delta_t) delta_t (N - 1) t (by omega)]
    rfl
  · intro t
    show (mg_build beta gamma n (mg_delay tau delta_t) delta_t (t + 1)).getD (t + 1) 0 = _
    rw [mg_build_succ,
      List.getD_append_right _ _ _ _ (by rw [mg_build_length]),
      mg_build_length, Nat.sub_self, List.getD_cons_zero]
    have hxd : (mg_build beta gamma n (mg_delay tau delta_t) delta_t t).getD
        (mg_delay tau delta_t (t + 1)) 0 = mg_delayed beta gamma n tau delta_t t := by
      rw [mg_delayed]
      by_cases hd : mg_delay tau delta_t (t + 1) ≤ t
      · rw [if_pos hd]
        exact mg_build_getD_stable beta gamma n (mg_delay tau delta_t) delta_t t _ hd
      · rw [if_neg hd]
        exact List.getD_eq_default _ _ (by rw [mg_build_length]; omega)
    rw [hxd]
    rfl

/-- Witness for C9's amended theorem at a concrete input. -/
theorem mackey_glass_truncated_euler_witness :
    ∃ xs, mackey_glass 0 0 0 0 0 0 1 = some xs ∧ xs.length = 1 ∧
      (∀ t, t < 1 → xs.getD t 0 = 0 * mg_x 0 0 0 0 0 t) ∧
      mg_x 0 0 0 0 0 0 = 1 / 2 ∧
      ∀ t, mg_x 0 0 0 0 0 (t + 1) =
        mg_x 0 0 0 0 0 t +
          0 * (0 * mg_delayed 0 0 0 0 0 t / (1 + mg_delayed 0 0 0 0 0 t ^ 0) -
            0 * mg_x 0 0 0 0 0 t) :=
  mackey_glass_truncated_euler 0 0 0 0 0 0 1 Nat.one_pos

/-- C9, counterexample: at `beta = 1`, `gamma = 0`, `n = 1`, `tau = 13/5`,
`amplitude = 1`, `delta_t = 1`, `num_steps = 4`, the source's trajectory
(delay index truncates `tau/delta_t = 2.6` to `2`) differs from the
trajectory the claim describes (delay index rounds `2.6` to `3`): they
disagree at step 3 (`107/66` versus `3/2`). -/
theorem mackey_glass_round_counterexample :
    mackey_glass 1 0 1 (13 / 5) 1 1 4 ≠ mackey_glass_round 1 0 1 (13 / 5) 1 1 4 := by
  have hfl : ⌊(13 / 5 : ℚ)⌋ = 2 := by
    rw [Int.floor_eq_iff]
    norm_num
  have hrd : round ((13 : ℚ) / 5) = 3 := by
    rw [round_eq, Int.floor_eq_iff]
    norm_num
  have hd : ∀ t : ℕ, mg_delay (13 / 5) 1 t = (max ((t : ℤ) - 2) 0).toNat := by
    intro t
    rw [mg_delay, pyInt, div_one, if_pos (by norm_num), hfl]
  have he : ∀ t : ℕ, mg_delay_round (13 / 5) 1 t = (max ((t : ℤ) - 3) 0).toNat := by
    intro t
    rw [mg_delay_round, div_one, hrd]
  have hd1 : mg_delay (13 / 5) 1 1 = 0 := by rw [hd]; rfl
  have hd2 : mg_delay (13 / 5) 1 2 = 0 := by rw [hd]; rfl
  have hd3 : mg_delay (13 / 5) 1 3 = 1 := by rw [hd]; rfl
  have he1 : mg_delay_round (13 / 5) 1 1 = 0 := by rw [he]; rfl
  have he2 : mg_delay_round (13 / 5) 1 2 = 0 := by rw [he]; rfl
  have he3 : mg_delay_round (13 / 5) 1 3 = 0 := by rw [he]; rfl
  have hL : mg_build 1 0 1 (mg_delay (13 / 5) 1) 1 3 = [1/2, 5/6, 7/6, 107/66] := by
    norm_num [mg_build, hd1, hd2, hd3]
  have hR : mg_build 1 0 1 (mg_delay_round (13 / 5) 1) 1 3 = [1/2, 5/6, 7/6, 3/2] := by
    norm_num [mg_build, he1, he2, he3]
  rw [mackey_glass, mackey_glass_round, if_neg (by norm_num), if_neg (by norm_num)]
  norm_num [hL, hR]

end EAIWS
